import Mathlib

/-!
Verification of the `gompmc` fan-out engine (package `mpmc`).

The Go sources are shallowly embedded: timestamps (`time.Time`) become `Nat`
with `<` standing for `Before`; Go channels become bounded FIFO queues
(`List` plus a capacity); pointer identity of a `Consumer` becomes its
opaque `id` token; the `select` statement of `Producer.Write` becomes an
explicit choice among the cases that Go would consider ready.
-/

namespace Gompmc

/-- Embedding of `Consumer[T]` from `mpmc_consumer.go`: identity token,
bounded message queue (contents plus fixed capacity), and the
last-delivery timestamp read by the LRU strategy. -/
structure Consumer (α : Type) where
  id : Nat
  messages : List α
  capacity : Nat
  lastUsed : Nat
  deriving DecidableEq

/-- Embedding of the `Producer[T]` struct of `mpmc_fanout.go`: the bounded
input channel, the consumer registry, the `done` channel (`done = true`
once it has been closed) and the `closeOnce` guard. -/
structure ProducerState (α : Type) where
  inputCap : Nat
  consumerCap : Nat
  input : List α
  consumers : List (Consumer α)
  done : Bool
  onceDone : Bool
  deriving DecidableEq

/-- The three cases of the `select` in `Producer.Write`. -/
inductive SelectCase where
  | send : SelectCase
  | recvDone : SelectCase
  | dflt : SelectCase
  deriving DecidableEq

/-- The two caller-visible errors of `Producer.Write`. -/
inductive WriteError where
  | closed : WriteError
  | bufferFull : WriteError
  deriving DecidableEq

/-- A buffered channel send is ready exactly when the buffer has free
capacity. -/
def sendReady {α : Type} (s : ProducerState α) : Bool :=
  s.input.length < s.inputCap

/-- Go `select` semantics for `Producer.Write`: a communication case may be
taken only when it is ready, and the `default` case only when no
communication case is ready.  When several cases are ready Go chooses
among them nondeterministically, which the choice parameter records. -/
def ValidCase {α : Type} (s : ProducerState α) : SelectCase → Prop
  | SelectCase.send => sendReady s = true
  | SelectCase.recvDone => s.done = true
  | SelectCase.dflt => sendReady s = false ∧ s.done = false

instance {α : Type} (s : ProducerState α) (c : SelectCase) :
    Decidable (ValidCase s c) := by
  cases c <;> simp [ValidCase] <;> infer_instance

/-- Embedding of `Producer.Write` (mpmc_fanout.go lines 84–95), resolved at
a given select case: the send case enqueues the item and returns `nil`,
the `<-f.done` case returns `ErrProducerClosed`, the default case returns
`ErrBufferFull`. -/
def Write {α : Type} (s : ProducerState α) (item : α) :
    SelectCase → ProducerState α × Option WriteError
  | SelectCase.send => ({ s with input := s.input ++ [item] }, none)
  | SelectCase.recvDone => (s, some WriteError.closed)
  | SelectCase.dflt => (s, some WriteError.bufferFull)

/-- A producer state in which `Close` has already run: the `done` channel
is closed and the input queue still has free capacity. -/
def closedState : ProducerState Nat :=
  { inputCap := 4, consumerCap := 4, input := [], consumers := [],
    done := true, onceDone := true }

/-- Claim C1 (code bug exhibit): with the producer closed and the input
queue not full, the send case of the `select` in `Write` is ready, so Go
may take it; the post-close `Write` then enqueues the item and returns
success, contradicting both the spec and `Write`'s own documentation. -/
theorem write_after_close_can_succeed :
    closedState.done = true ∧
    ValidCase closedState SelectCase.send ∧
    (Write closedState 42 SelectCase.send).2 = none ∧
    (Write closedState 42 SelectCase.send).1.input = [42] := by
  refine ⟨rfl, ?_, rfl, rfl⟩
  decide

/-- Claim C4: when shutdown has not begun, `Write` returns `BufferFull`
exactly when the input queue has no free capacity, and otherwise enqueues
the item and returns success, whichever select case Go resolves to. -/
theorem write_open_bufferFull_iff {α : Type} (s : ProducerState α) (item : α)
    (c : SelectCase) (hopen : s.done = false) (hv : ValidCase s c) :
    ((Write s item c).2 = some WriteError.bufferFull ↔
      s.inputCap ≤ s.input.length) ∧
    (s.input.length < s.inputCap →
      (Write s item c).2 = none ∧
      (Write s item c).1.input = s.input ++ [item]) := by
  cases c with
  | send =>
      simp only [ValidCase, sendReady, decide_eq_true_eq] at hv
      simp [Write, Nat.not_le.mpr hv]
  | recvDone =>
      simp only [ValidCase] at hv
      rw [hv] at hopen
      exact absurd hopen (by simp)
  | dflt =>
      obtain ⟨hfull, -⟩ := hv
      simp only [sendReady, decide_eq_false_iff_not] at hfull
      have hle : s.inputCap ≤ s.input.length := Nat.not_lt.mp hfull
      constructor
      · simp [Write, hle]
      · intro hlt
        exact absurd hlt (Nat.not_lt.mpr hle)

/-- An open producer state with room in the input queue. -/
def openState : ProducerState Nat :=
  { inputCap := 2, consumerCap := 2, input := [], consumers := [],
    done := false, onceDone := false }

/-- Witness for C4 at a concrete open state: the send case is the valid
one, the write succeeds and the item lands in the queue. -/
theorem write_open_bufferFull_iff_witness :
    openState.done = false ∧ ValidCase openState SelectCase.send ∧
    (((Write openState 9 SelectCase.send).2 = some WriteError.bufferFull ↔
        openState.inputCap ≤ openState.input.length) ∧
      (openState.input.length < openState.inputCap →
        (Write openState 9 SelectCase.send).2 = none ∧
        (Write openState 9 SelectCase.send).1.input =
          openState.input ++ [9])) :=
  ⟨rfl, by decide,
    write_open_bufferFull_iff openState 9 SelectCase.send rfl (by decide)⟩

/-- One delivery attempt of the dispatch loop: the non-blocking
`selected.input <- item` succeeds exactly when the consumer's queue has
free capacity, and on success the loop sets `lastUsed` to the current
time; a full queue drops the item and leaves the consumer unchanged. -/
def pushConsumer {α : Type} (c : Consumer α) (item : α) (now : Nat) :
    Consumer α :=
  if c.messages.length < c.capacity then
    { c with messages := c.messages ++ [item], lastUsed := now }
  else
    c

/-- The comparison of `ConsumerList.Less`: `cl[i].lastUsed.Before
(cl[j].lastUsed)`. -/
def ConsumerLess {α : Type} (a b : Consumer α) : Bool :=
  a.lastUsed < b.lastUsed

/-- A registry slice arranged as `sort.Sort(f.consumers)` leaves it: for
any two positions `i < j`, `Less j i` fails, i.e. `lastUsed` is
nondecreasing along the slice. -/
def SortedByLastUsed {α : Type} (l : List (Consumer α)) : Prop :=
  List.Pairwise (fun a b => a.lastUsed ≤ b.lastUsed) l

instance {α : Type} (l : List (Consumer α)) :
    Decidable (SortedByLastUsed l) :=
  inferInstanceAs (Decidable (List.Pairwise _ l))

/-- Contract of the stdlib call `sort.Sort(f.consumers)`: the result is
some permutation of the registry that is sorted by `ConsumerList.Less`.
`sort.Sort` is documented as not guaranteed stable, so every sorted
permutation is a possible outcome. -/
def IsSortResult {α : Type} (reg reg' : List (Consumer α)) : Prop :=
  List.Perm reg' reg ∧ SortedByLastUsed reg'

/-- Dispatch of one item under the LRU strategy (mpmc_fanout.go lines
158–182), applied to the slice as the in-place `sort.Sort` left it: the
loop takes `f.consumers[0]` and pushes to it. -/
def dispatchLru {α : Type} (sorted : List (Consumer α)) (item : α)
    (now : Nat) : List (Consumer α) :=
  match sorted with
  | [] => []
  | lru :: rest => pushConsumer lru item now :: rest

/-- Dispatch of one item under the Single strategy (mpmc_fanout.go lines
132–155), at the index `r` that `rand.Intn(len(f.consumers))`
returned. -/
def dispatchSingle {α : Type} (reg : List (Consumer α)) (item : α)
    (now r : Nat) : List (Consumer α) :=
  match reg.get? r with
  | some selected => reg.set r (pushConsumer selected item now)
  | none => reg

/-- Dispatch of one item under the All strategy (mpmc_fanout.go lines
185–205): an independent delivery attempt to every registered
consumer. -/
def dispatchAll {α : Type} (reg : List (Consumer α)) (item : α)
    (now : Nat) : List (Consumer α) :=
  reg.map (fun c => pushConsumer c item now)

/-- The head of any sorted permutation belongs to the registry and has the
minimal `lastUsed` among all registered consumers. -/
theorem headOfSortResult_minimal {α : Type} (reg reg' : List (Consumer α))
    (hd : Consumer α) (hsort : IsSortResult reg reg')
    (hhd : reg'.head? = some hd) :
    hd ∈ reg ∧ ∀ c ∈ reg, hd.lastUsed ≤ c.lastUsed := by
  obtain ⟨hperm, hsorted⟩ := hsort
  cases reg' with
  | nil => simp at hhd
  | cons h t =>
      have hh : h = hd := by simpa using hhd
      rw [← hh]
      constructor
      · exact hperm.mem_iff.mp (List.mem_cons_self h t)
      · intro c hc
        have hc' : c ∈ h :: t := hperm.mem_iff.mpr hc
        rcases List.mem_cons.mp hc' with hch | hch
        · rw [hch]
        · exact (List.pairwise_cons.mp hsorted).1 c hch

/-- The selection the claim and the spec describe for a tie: the first
consumer in registry order whose `lastUsed` is minimal.  Modelled from
the spec's words, to be compared with what the code does. -/
def claimedSelectLRU {α : Type} (reg : List (Consumer α)) :
    Option (Consumer α) :=
  reg.find? (fun c => reg.all (fun d => c.lastUsed ≤ d.lastUsed))

/-- Two registered consumers carrying the same `lastUsed` timestamp. -/
def tieA : Consumer Nat :=
  { id := 0, messages := [], capacity := 1, lastUsed := 5 }

/-- The second consumer of the tie, later in registry order. -/
def tieB : Consumer Nat :=
  { id := 1, messages := [], capacity := 1, lastUsed := 5 }

/-- Claim C2 counterexample: on the registry `[tieA, tieB]` the claim's
tie-break mandates `tieA` (first in registry order), but `[tieB, tieA]`
is an equally valid outcome of the unstable `sort.Sort`, and the loop then
delivers to `tieB`. -/
theorem lru_tieBreak_not_registry_order :
    IsSortResult [tieA, tieB] [tieB, tieA] ∧
    claimedSelectLRU [tieA, tieB] = some tieA ∧
    (List.head? [tieB, tieA]) = some tieB ∧
    (dispatchLru [tieB, tieA] 7 9).head? =
      some (pushConsumer tieB 7 9) ∧
    tieB.id ≠ tieA.id := by
  refine ⟨⟨?_, ?_⟩, ?_, rfl, rfl, ?_⟩
  · decide
  · decide
  · decide
  · decide

/-- Claim C2 (amended): under the LRU strategy the selected target is a
consumer with minimal `lastUsed` among all registered consumers; which of
several tied minima is chosen is not fixed by the code, since `sort.Sort`
carries no stability guarantee. -/
theorem lru_selects_minimal {α : Type} (reg reg' : List (Consumer α))
    (hd : Consumer α) (item : α) (now : Nat)
    (hsort : IsSortResult reg reg') (hhd : reg'.head? = some hd) :
    hd ∈ reg ∧ (∀ c ∈ reg, hd.lastUsed ≤ c.lastUsed) ∧
    (dispatchLru reg' item now).head? = some (pushConsumer hd item now) := by
  obtain ⟨hmem, hmin⟩ := headOfSortResult_minimal reg reg' hd hsort hhd
  refine ⟨hmem, hmin, ?_⟩
  cases reg' with
  | nil => simp at hhd
  | cons h t =>
      simp only [List.head?_cons, Option.some.injEq] at hhd
      subst hhd
      rfl

/-- Witness for the amended C2 at a concrete registry: sorting
`[tieB, tieA]` as is and delivering to the head. -/
theorem lru_selects_minimal_witness :
    IsSortResult [tieA, tieB] [tieB, tieA] ∧
    (List.head? [tieB, tieA]) = some tieB ∧
    (tieB ∈ [tieA, tieB] ∧
      (∀ c ∈ [tieA, tieB], tieB.lastUsed ≤ c.lastUsed) ∧
      (dispatchLru [tieB, tieA] 3 4).head? =
        some (pushConsumer tieB 3 4)) :=
  ⟨⟨by decide, by decide⟩, rfl,
    lru_selects_minimal [tieA, tieB] [tieB, tieA] tieB 3 4
      ⟨by decide, by decide⟩ rfl⟩

/-- Embedding of `newConsumer` (mpmc_consumer.go lines 22–35): a fresh
identity token, an empty bounded queue of the configured capacity, and
`lastUsed` initialised to `time.Now()` — the creation instant `now`, not
a zero timestamp. -/
def newConsumer (α : Type) (consumer_buffer_size idn now : Nat) :
    Consumer α :=
  { id := idn, messages := [], capacity := consumer_buffer_size,
    lastUsed := now }

/-- Embedding of `Producer.CreateConsumer` (mpmc_fanout.go lines 99–122):
builds a consumer via `newConsumer` and appends it to the registry under
the lock.  The Go code consults neither `f.done` nor `closeOnce` here. -/
def CreateConsumer {α : Type} (s : ProducerState α) (idn now : Nat) :
    ProducerState α × Consumer α :=
  let c := newConsumer α s.consumerCap idn now
  ({ s with consumers := s.consumers ++ [c] }, c)

/-- Closing the `done` channel itself: `close()` of an already-closed Go
channel panics, which `none` records. -/
def closeChanRaw {α : Type} (s : ProducerState α) :
    Option (ProducerState α) :=
  if s.done then none else some { s with done := true }

/-- Embedding of `Producer.Close` (mpmc_fanout.go lines 125–129):
`closeOnce.Do(func() { close(f.done) })` — the channel close runs only on
the first call. -/
def Close {α : Type} (s : ProducerState α) : Option (ProducerState α) :=
  if s.onceDone then some s
  else (closeChanRaw s).map (fun s' => { s' with onceDone := true })

/-- Embedding of the registry removal that `CreateConsumer` installs for a
cancelled consumer (mpmc_fanout.go lines 110–120): scan the slice, splice
out the first entry with the target identity, then `break`. -/
def removeByIdentity {α : Type} :
    List (Consumer α) → Nat → List (Consumer α)
  | [], _ => []
  | c :: rest, t =>
      if c.id = t then rest else c :: removeByIdentity rest t

/-- Claim C5: `Close` is idempotent and never panics on any state whose
`done` channel and `closeOnce` flag agree (they start out both unset and
only `Close` ever sets them, together); the first call transitions the
shutdown signal from open to closed, repeated calls change nothing, and
nothing else in the state is touched. -/
theorem close_idempotent {α : Type} (s : ProducerState α)
    (hwf : s.done = s.onceDone) :
    ∃ s₁, Close s = some s₁ ∧ Close s₁ = some s₁ ∧
      s₁.done = true ∧ s₁.onceDone = true ∧
      s₁.input = s.input ∧ s₁.consumers = s.consumers ∧
      (s.onceDone = true → s₁ = s) := by
  by_cases honce : s.onceDone = true
  · refine ⟨s, ?_, ?_, ?_, honce, rfl, rfl, fun _ => rfl⟩
    · simp [Close, honce]
    · simp [Close, honce]
    · rw [hwf]
      exact honce
  · have honce' : s.onceDone = false := by
      cases h : s.onceDone with
      | false => rfl
      | true => exact absurd h honce
    have hdone : s.done = false := by
      rw [hwf]
      exact honce'
    refine ⟨{ s with done := true, onceDone := true }, ?_, ?_, rfl, rfl,
      rfl, rfl, fun h => absurd h honce⟩
    · simp [Close, closeChanRaw, honce', hdone]
    · simp [Close]

/-- Witness for C5 at the freshly constructed open state: the first close
yields `closedState`-shaped flags and a second close is a no-op. -/
theorem close_idempotent_witness :
    openState.done = openState.onceDone ∧
    ∃ s₁, Close openState = some s₁ ∧ Close s₁ = some s₁ ∧
      s₁.done = true ∧ s₁.onceDone = true ∧
      s₁.input = openState.input ∧ s₁.consumers = openState.consumers ∧
      (openState.onceDone = true → s₁ = openState) :=
  ⟨rfl, close_idempotent openState rfl⟩

/-- Removing an identity that is absent from the registry leaves the
registry unchanged. -/
theorem removeByIdentity_absent {α : Type} (reg : List (Consumer α))
    (t : Nat) (habs : (reg.map Consumer.id).count t = 0) :
    removeByIdentity reg t = reg := by
  induction reg with
  | nil => rfl
  | cons c rest ih =>
      simp only [List.map_cons, List.count_cons, beq_iff_eq] at habs
      by_cases hc : c.id = t
      · rw [if_pos hc] at habs
        exfalso
        omega
      · rw [if_neg hc] at habs
        simp only [removeByIdentity, if_neg hc]
        rw [ih (by omega)]

/-- Claim C7: registry removal is idempotent-safe.  Removing an absent
identity is a no-op; when the identity occurs exactly once (identity
tokens are unique), removal shrinks the registry by exactly one entry,
afterwards the identity is gone, and a second, racing removal of the same
identity changes nothing. -/
theorem removeByIdentity_idempotent {α : Type} (reg : List (Consumer α))
    (t : Nat) :
    ((reg.map Consumer.id).count t = 0 → removeByIdentity reg t = reg) ∧
    ((reg.map Consumer.id).count t = 1 →
      (removeByIdentity reg t).length + 1 = reg.length ∧
      ((removeByIdentity reg t).map Consumer.id).count t = 0 ∧
      removeByIdentity (removeByIdentity reg t) t =
        removeByIdentity reg t) := by
  refine ⟨removeByIdentity_absent reg t, ?_⟩
  intro hone
  have key : ∀ r : List (Consumer α),
      (r.map Consumer.id).count t = 1 →
      (removeByIdentity r t).length + 1 = r.length ∧
      ((removeByIdentity r t).map Consumer.id).count t = 0 := by
    intro r
    induction r with
    | nil => simp
    | cons c rest ih =>
        intro h1
        simp only [List.map_cons, List.count_cons, beq_iff_eq] at h1
        by_cases hc : c.id = t
        · simp only [removeByIdentity, if_pos hc]
          rw [if_pos hc] at h1
          exact ⟨rfl, by omega⟩
        · rw [if_neg hc] at h1
          simp only [removeByIdentity, if_neg hc]
          obtain ⟨hlen, hcnt⟩ := ih (by omega)
          refine ⟨by simpa using hlen, ?_⟩
          simp only [List.map_cons, List.count_cons, beq_iff_eq,
            if_neg hc, hcnt]
  obtain ⟨hlen, hcnt⟩ := key reg hone
  exact ⟨hlen, hcnt, removeByIdentity_absent _ t hcnt⟩

/-- Witness for C7: on the two-entry registry with identities 0 and 1,
identity 1 occurs once; its removal shrinks the registry to one entry and
a second removal of the same identity changes nothing. -/
theorem removeByIdentity_idempotent_witness :
    ([tieA, tieB].map Consumer.id).count 1 = 1 ∧
    ((removeByIdentity [tieA, tieB] 1).length + 1 = 2 ∧
      ((removeByIdentity [tieA, tieB] 1).map Consumer.id).count 1 = 0 ∧
      removeByIdentity (removeByIdentity [tieA, tieB] 1) 1 =
        removeByIdentity [tieA, tieB] 1) :=
  ⟨by decide,
    (removeByIdentity_idempotent [tieA, tieB] 1).2 (by decide)⟩

/-- Claim C8 counterexample: `closedState` has `done` closed (its `Close`
has completed), yet `CreateConsumer` still appends the new consumer to
the registry — the Go code never consults `f.done` on this path. -/
theorem createConsumer_after_close_registers :
    closedState.done = true ∧
    Close closedState = some closedState ∧
    ((CreateConsumer closedState 7 3).1.consumers.map Consumer.id)
      = [7] := by
  exact ⟨rfl, rfl, rfl⟩

/-- Claim C8 (amended): `CreateConsumer` appends the new consumer to the
registry unconditionally — whether or not `Close` has already run, the
registry grows by exactly that consumer. -/
theorem createConsumer_always_registers {α : Type}
    (s : ProducerState α) (idn now : Nat) :
    (CreateConsumer s idn now).1.consumers =
      s.consumers ++ [newConsumer α s.consumerCap idn now] ∧
    (CreateConsumer s idn now).1.done = s.done := by
  exact ⟨rfl, rfl⟩

/-- Claim C10: `newConsumer` stamps `lastUsed` with the creation instant,
so under LRU a fresh consumer orders strictly after every consumer whose
timestamp is older, and whenever some registered consumer is strictly
older the fresh consumer is not the one the sorted registry selects. -/
theorem newConsumer_lastUsed_creation {α : Type}
    (cap idn now : Nat) (reg reg' : List (Consumer α)) (c hd : Consumer α)
    (hsort : IsSortResult reg reg') (hc : c ∈ reg)
    (hold : c.lastUsed < now) (hhd : reg'.head? = some hd) :
    (newConsumer α cap idn now).lastUsed = now ∧
    ConsumerLess c (newConsumer α cap idn now) = true ∧
    hd.lastUsed < now ∧
    hd ≠ newConsumer α cap idn now := by
  obtain ⟨-, hmin⟩ := headOfSortResult_minimal reg reg' hd hsort hhd
  have hlt : hd.lastUsed < now := lt_of_le_of_lt (hmin c hc) hold
  refine ⟨rfl, ?_, hlt, ?_⟩
  · simp only [ConsumerLess, newConsumer, decide_eq_true_eq]
    exact hold
  · intro heq
    rw [heq] at hlt
    exact absurd hlt (by simp [newConsumer])

/-- A consumer whose last delivery predates the creation of a fresh
consumer at time 9. -/
def olderConsumer : Consumer Nat :=
  { id := 2, messages := [], capacity := 1, lastUsed := 4 }

/-- Witness for C10: with `olderConsumer` (timestamp 4) registered, any
sorted registry beginning with it does not select the consumer freshly
created at time 9. -/
theorem newConsumer_lastUsed_creation_witness :
    IsSortResult [olderConsumer] [olderConsumer] ∧
    olderConsumer ∈ [olderConsumer] ∧ olderConsumer.lastUsed < 9 ∧
    ((newConsumer Nat 1 8 9).lastUsed = 9 ∧
      ConsumerLess olderConsumer (newConsumer Nat 1 8 9) = true ∧
      olderConsumer.lastUsed < 9 ∧
      olderConsumer ≠ newConsumer Nat 1 8 9) :=
  ⟨⟨by decide, by decide⟩, by decide, by decide,
    newConsumer_lastUsed_creation 1 8 9 [olderConsumer] [olderConsumer]
      olderConsumer olderConsumer ⟨by decide, by decide⟩
      (by decide) (by decide) rfl⟩

/-- The dispatch loop of the All strategy run over a whole input stream:
one item per iteration, in the order the loop drained them, the clock
advancing between iterations. -/
def runAll {α : Type} (reg : List (Consumer α)) :
    List α → Nat → List (Consumer α)
  | [], _ => reg
  | item :: rest, t => runAll (dispatchAll reg item t) rest (t + 1)

/-- The effect of the All-strategy run on one consumer: `dispatchAll` acts
pointwise, so the run does too. -/
def runOne {α : Type} (c : Consumer α) : List α → Nat → Consumer α
  | [], _ => c
  | item :: rest, t => runOne (pushConsumer c item t) rest (t + 1)

theorem runAll_eq_map {α : Type} (items : List α) (reg : List (Consumer α))
    (t : Nat) :
    runAll reg items t = reg.map (fun c => runOne c items t) := by
  induction items generalizing reg t with
  | nil => simp [runAll, runOne]
  | cons item rest ih =>
      simp only [runAll, dispatchAll, ih, List.map_map]
      rfl

/-- A consumer whose free capacity covers the whole stream receives every
item, appended in stream order. -/
theorem runOne_no_drop {α : Type} (items : List α) (c : Consumer α)
    (t : Nat) (hcap : c.messages.length + items.length ≤ c.capacity) :
    (runOne c items t).messages = c.messages ++ items ∧
    (runOne c items t).capacity = c.capacity ∧
    (runOne c items t).id = c.id := by
  induction items generalizing c t with
  | nil => simp [runOne]
  | cons item rest ih =>
      simp only [List.length_cons] at hcap
      have hroom : c.messages.length < c.capacity := by omega
      simp only [runOne, pushConsumer, if_pos hroom]
      obtain ⟨hm, hcap', hid⟩ := ih
        { c with messages := c.messages ++ [item], lastUsed := t }
        (t + 1) (by simpa using (by omega : (c.messages.length + 1) + rest.length ≤ c.capacity))
      exact ⟨by simpa using hm, hcap', hid⟩

/-- Claim C3: under the All strategy, with every consumer registered for
the whole run, starting empty and sized at least the total item count
N×M, every consumer ends the run holding exactly the full stream — the
same sequence, of length N×M, in dispatch order. -/
theorem all_strategy_conservation {α : Type} (N M : Nat) (items : List α)
    (reg : List (Consumer α)) (t : Nat) (hlen : items.length = N * M)
    (hinit : ∀ c ∈ reg, c.messages = [] ∧ N * M ≤ c.capacity) :
    ∀ c' ∈ runAll reg items t,
      c'.messages = items ∧ c'.messages.length = N * M := by
  intro c' hc'
  rw [runAll_eq_map] at hc'
  obtain ⟨c, hc, rfl⟩ := List.mem_map.mp hc'
  obtain ⟨hempty, hcap⟩ := hinit c hc
  obtain ⟨hm, -, -⟩ := runOne_no_drop items c t (by
    rw [hempty, hlen]
    simpa using hcap)
  rw [hm, hempty]
  simp [hlen]

/-- Witness for C3: two consumers of capacity 6 receive the whole
six-item stream (N = 2 producers × M = 3 items) identically and in
order. -/
theorem all_strategy_conservation_witness :
    ([10, 11, 12, 20, 21, 22] : List Nat).length = 2 * 3 ∧
    (∀ c ∈ [newConsumer Nat 6 0 0, newConsumer Nat 6 1 0],
      c.messages = [] ∧ 2 * 3 ≤ c.capacity) ∧
    ∀ c' ∈ runAll [newConsumer Nat 6 0 0, newConsumer Nat 6 1 0]
        [10, 11, 12, 20, 21, 22] 1,
      c'.messages = [10, 11, 12, 20, 21, 22] ∧
      c'.messages.length = 2 * 3 :=
  ⟨rfl, by decide,
    all_strategy_conservation 2 3 [10, 11, 12, 20, 21, 22]
      [newConsumer Nat 6 0 0, newConsumer Nat 6 1 0] 1 rfl (by decide)⟩

/-- Relation between a registry entry before and after one delivery
attempt: either the consumer is untouched, or its queue had room, the
item was appended and `lastUsed` was set to the dispatch time — and in
either case `id` and `capacity` are unchanged. -/
def FrameOk {α : Type} (item : α) (now : Nat) (old new : Consumer α) :
    Prop :=
  new = old ∨
    (old.messages.length < old.capacity ∧
      new = { old with messages := old.messages ++ [item], lastUsed := now })

theorem frameOk_refl {α : Type} (item : α) (now : Nat) (c : Consumer α) :
    FrameOk item now c c :=
  Or.inl rfl

theorem frameOk_push {α : Type} (item : α) (now : Nat) (c : Consumer α) :
    FrameOk item now c (pushConsumer c item now) := by
  by_cases h : c.messages.length < c.capacity
  · exact Or.inr ⟨h, by simp [pushConsumer, h]⟩
  · simp only [pushConsumer, if_neg h]
    exact Or.inl rfl

/-- One dispatch-loop iteration on the registry, for whichever strategy
the producer was built with; the parameters record the outcome of
`rand.Intn` and of the unstable `sort.Sort`. -/
inductive DispatchStep {α : Type} (item : α) (now : Nat) :
    List (Consumer α) → List (Consumer α) → Prop
  | single (reg : List (Consumer α)) (r : Nat) (hr : r < reg.length) :
      DispatchStep item now reg (dispatchSingle reg item now r)
  | lru (reg reg' : List (Consumer α)) (hsort : IsSortResult reg reg') :
      DispatchStep item now reg (dispatchLru reg' item now)
  | all (reg : List (Consumer α)) :
      DispatchStep item now reg (dispatchAll reg item now)

theorem forall₂_frameOk_set {α : Type} (item : α) (now : Nat) :
    ∀ (l : List (Consumer α)) (r : Nat),
    List.Forall₂ (FrameOk item now) l
      (match l.get? r with
        | some c => l.set r (pushConsumer c item now)
        | none => l) := by
  intro l
  induction l with
  | nil =>
      intro r
      exact List.Forall₂.nil
  | cons c rest ih =>
      intro r
      cases r with
      | zero =>
          simp only [List.get?_cons_zero, List.set]
          exact List.Forall₂.cons (frameOk_push item now c)
            (List.forall₂_same.mpr (fun x _ => frameOk_refl item now x))
      | succ n =>
          simp only [List.get?_cons_succ, List.set]
          cases hn : rest.get? n with
          | none =>
              simp only [hn]
              exact List.Forall₂.cons (frameOk_refl item now c)
                (List.forall₂_same.mpr (fun x _ => frameOk_refl item now x))
          | some d =>
              have := ih n
              rw [hn] at this
              simp only [hn]
              exact List.Forall₂.cons (frameOk_refl item now c) this

theorem frameOk_map_id {α : Type} (item : α) (now : Nat) :
    ∀ (l l' : List (Consumer α)),
    List.Forall₂ (FrameOk item now) l l' →
    l.map Consumer.id = l'.map Consumer.id := by
  intro l l' h
  induction h with
  | nil => rfl
  | cons hab _ ih =>
      simp only [List.map_cons, ih, List.cons.injEq, and_true]
      rcases hab with h | ⟨-, h⟩
      · rw [h]
      · rw [h]

/-- Claim C6: one dispatch-loop iteration of any strategy neither adds
nor removes registry entries — the identity tokens after the step are a
permutation of those before — and each surviving entry is either
untouched or was actually pushed to, in which case its queue gained
exactly the item and its `lastUsed` became the dispatch time; `id` and
`capacity` never change. -/
theorem dispatch_frame {α : Type} (item : α) (now : Nat)
    (reg reg' : List (Consumer α)) (h : DispatchStep item now reg reg') :
    (∃ mid, List.Perm mid reg ∧
      List.Forall₂ (FrameOk item now) mid reg') ∧
    List.Perm (reg'.map Consumer.id) (reg.map Consumer.id) := by
  have main : ∃ mid, List.Perm mid reg ∧
      List.Forall₂ (FrameOk item now) mid reg' := by
    cases h with
    | single r hr =>
        exact ⟨reg, List.Perm.refl reg, forall₂_frameOk_set item now reg r⟩
    | lru s hsort =>
        refine ⟨s, hsort.1, ?_⟩
        cases s with
        | nil => exact List.Forall₂.nil
        | cons hd rest =>
            exact List.Forall₂.cons (frameOk_push item now hd)
              (List.forall₂_same.mpr (fun x _ => frameOk_refl item now x))
    | all =>
        refine ⟨reg, List.Perm.refl reg, ?_⟩
        simp only [dispatchAll]
        rw [List.forall₂_map_right_iff]
        exact List.forall₂_same.mpr
          (fun x _ => frameOk_push item now x)
  obtain ⟨mid, hperm, hf⟩ := main
  refine ⟨⟨mid, hperm, hf⟩, ?_⟩
  rw [← frameOk_map_id item now mid reg' hf]
  exact hperm.map Consumer.id

/-- Witness for C6 at a concrete step: the All strategy over the
two-entry tie registry. -/
theorem dispatch_frame_witness :
    (∃ mid, List.Perm mid [tieA, tieB] ∧
      List.Forall₂ (FrameOk 7 9) mid (dispatchAll [tieA, tieB] 7 9)) ∧
    List.Perm ((dispatchAll [tieA, tieB] 7 9).map Consumer.id)
      ([tieA, tieB].map Consumer.id) :=
  dispatch_frame 7 9 [tieA, tieB] (dispatchAll [tieA, tieB] 7 9)
    (DispatchStep.all [tieA, tieB])

/-- The `ProducerKind` constants of mpmc_fanout.go (`iota`). -/
def ProducerKind_Single : Nat := 0

/-- `ProducerKind_LRU`, the second `iota` value. -/
def ProducerKind_LRU : Nat := 1

/-- `ProducerKind_All`, the third `iota` value. -/
def ProducerKind_All : Nat := 2

/-- The `switch kind` of `NewProducer` (mpmc_fanout.go lines 58–65): a
dispatch goroutine is started for the three named kinds and for no other
value — the switch has no default arm. -/
def startsLoop (kind : Nat) : Bool :=
  if kind = ProducerKind_Single then true
  else if kind = ProducerKind_LRU then true
  else if kind = ProducerKind_All then true
  else false

/-- A producer together with its dispatch goroutine's liveness. -/
structure SysState (α : Type) where
  prod : ProducerState α
  loopRunning : Bool

/-- Embedding of `NewProducer` (mpmc_fanout.go lines 47–80): empty input
queue, empty registry, open `done` channel, and a dispatch loop exactly
when the kind is one of the three named constants. -/
def NewProducer (α : Type) (kind input_buffer_size consumer_buffer_size :
    Nat) : SysState α :=
  { prod := { inputCap := input_buffer_size,
              consumerCap := consumer_buffer_size,
              input := [], consumers := [],
              done := false, onceDone := false },
    loopRunning := startsLoop kind }

/-- The atomic transitions of the embedded system: caller-side writes,
consumer creation, close, the loop observing `done` and exiting, one
dispatch iteration (which requires the loop to be running), the
cancellation-triggered registry removal, and a reader draining one
message from its consumer's queue. -/
inductive Step {α : Type} : SysState α → SysState α → Prop
  | write (s : SysState α) (item : α) (c : SelectCase)
      (hv : ValidCase s.prod c) :
      Step s { s with prod := (Write s.prod item c).1 }
  | createC (s : SysState α) (idn now : Nat) :
      Step s { s with prod := (CreateConsumer s.prod idn now).1 }
  | closeP (s : SysState α) (p' : ProducerState α)
      (hc : Close s.prod = some p') :
      Step s { s with prod := p' }
  | loopExit (s : SysState α) (hdone : s.prod.done = true) :
      Step s { s with loopRunning := false }
  | dispatch (s : SysState α) (item : α) (rest : List α) (now : Nat)
      (reg' : List (Consumer α)) (hrun : s.loopRunning = true)
      (hin : s.prod.input = item :: rest)
      (hd : DispatchStep item now s.prod.consumers reg') :
      Step s { s with prod :=
        { s.prod with input := rest, consumers := reg' } }
  | removeC (s : SysState α) (t : Nat) :
      Step s { s with prod :=
        { s.prod with consumers :=
            removeByIdentity s.prod.consumers t } }
  | readC (s : SysState α) (i : Nat) (c : Consumer α) (x : α)
      (rest : List α) (hg : s.prod.consumers.get? i = some c)
      (hm : c.messages = x :: rest) :
      Step s { s with prod :=
        { s.prod with consumers :=
            s.prod.consumers.set i { c with messages := rest } } }

/-- Finitely many steps of the embedded system. -/
inductive Reachable {α : Type} (init : SysState α) : SysState α → Prop
  | refl : Reachable init init
  | step (s s' : SysState α) (hr : Reachable init s) (hs : Step s s') :
      Reachable init s'

theorem mem_of_mem_removeByIdentity {α : Type} (c : Consumer α)
    (t : Nat) :
    ∀ l : List (Consumer α), c ∈ removeByIdentity l t → c ∈ l := by
  intro l
  induction l with
  | nil => exact fun h => by simp [removeByIdentity] at h
  | cons d rest ih =>
      intro hc
      by_cases hdt : d.id = t
      · simp only [removeByIdentity, if_pos hdt] at hc
        exact List.mem_cons_of_mem d hc
      · simp only [removeByIdentity, if_neg hdt, List.mem_cons] at hc
        rcases hc with hc | hc
        · exact hc ▸ List.mem_cons_self d rest
        · exact List.mem_cons_of_mem d (ih hc)

theorem close_preserves_rest {α : Type} (s p' : ProducerState α)
    (hc : Close s = some p') :
    p'.consumers = s.consumers ∧ p'.input = s.input ∧
    p'.inputCap = s.inputCap := by
  by_cases honce : s.onceDone = true
  · simp only [Close, if_pos honce, Option.some.injEq] at hc
    rw [← hc]
    exact ⟨rfl, rfl, rfl⟩
  · by_cases hdone : s.done = true
    · have hnone : Close s = none := by
        simp [Close, closeChanRaw, honce, hdone]
      rw [hnone] at hc
      exact Option.noConfusion hc
    · have hsome : Close s = some
          { { s with done := true } with onceDone := true } := by
        simp [Close, closeChanRaw, honce, hdone]
      rw [hsome, Option.some.injEq] at hc
      rw [← hc]
      exact ⟨rfl, rfl, rfl⟩

theorem write_preserves_consumers {α : Type} (s : ProducerState α)
    (item : α) (c : SelectCase) :
    (Write s item c).1.consumers = s.consumers := by
  cases c <;> rfl

/-- The invariant carried along every run of a producer built without a
dispatch loop: the loop stays absent and every registered consumer's
queue stays empty. -/
def NoLoopNoDelivery {α : Type} (s : SysState α) : Prop :=
  s.loopRunning = false ∧ ∀ c ∈ s.prod.consumers, c.messages = []

theorem noLoopNoDelivery_step {α : Type} (s s' : SysState α)
    (hinv : NoLoopNoDelivery s) (hs : Step s s') :
    NoLoopNoDelivery s' := by
  obtain ⟨hrun, hempty⟩ := hinv
  cases hs with
  | write item c hv =>
      exact ⟨hrun, by
        rw [write_preserves_consumers]
        exact hempty⟩
  | createC idn now =>
      refine ⟨hrun, ?_⟩
      intro c hc
      simp only [CreateConsumer, List.mem_append, List.mem_singleton]
        at hc
      rcases hc with hc | hc
      · exact hempty c hc
      · rw [hc]
        rfl
  | closeP p' hc =>
      exact ⟨hrun, by
        rw [(close_preserves_rest s.prod p' hc).1]
        exact hempty⟩
  | loopExit hdone => exact ⟨rfl, hempty⟩
  | dispatch item rest now reg' hrunning hin hd =>
      rw [hrun] at hrunning
      exact absurd hrunning (by simp)
  | removeC t =>
      refine ⟨hrun, ?_⟩
      intro c hc
      exact hempty c
        (mem_of_mem_removeByIdentity c t s.prod.consumers hc)
  | readC i c x rest hg hm =>
      have : c ∈ s.prod.consumers := List.get?_mem hg
      rw [hempty c this] at hm
      exact absurd hm (by simp)

/-- Claim C9: for any `ProducerKind` other than the three named
constants, `NewProducer` starts no dispatch loop; along every execution
from such a producer no consumer ever holds a delivered item, while a
`Write` against a non-closed state with free input capacity is still a
valid select resolution that succeeds and enqueues the item. -/
theorem unknown_kind_never_delivers {α : Type}
    (kind input_buffer_size consumer_buffer_size : Nat)
    (h0 : kind ≠ ProducerKind_Single) (h1 : kind ≠ ProducerKind_LRU)
    (h2 : kind ≠ ProducerKind_All) :
    startsLoop kind = false ∧
    ∀ s : SysState α,
      Reachable (NewProducer α kind input_buffer_size
        consumer_buffer_size) s →
      (∀ c ∈ s.prod.consumers, c.messages = []) ∧
      ∀ item : α, sendReady s.prod = true →
        ValidCase s.prod SelectCase.send ∧
        (Write s.prod item SelectCase.send).2 = none ∧
        (Write s.prod item SelectCase.send).1.input =
          s.prod.input ++ [item] := by
  have hloop : startsLoop kind = false := by
    simp only [startsLoop, if_neg h0, if_neg h1, if_neg h2]
  refine ⟨hloop, ?_⟩
  intro s hreach
  have hinv : NoLoopNoDelivery s := by
    induction hreach with
    | refl => exact ⟨hloop, by simp [NewProducer]⟩
    | step s₁ s₂ hr hs ih => exact noLoopNoDelivery_step s₁ s₂ ih hs
  refine ⟨hinv.2, ?_⟩
  intro item hready
  exact ⟨hready, rfl, rfl⟩

/-- Witness for C9 with kind 3: no loop is started, and from the initial
state (which is reachable) the empty-queues and write-success facts
hold. -/
theorem unknown_kind_never_delivers_witness :
    startsLoop 3 = false ∧
    ((∀ c ∈ (NewProducer Nat 3 2 2).prod.consumers, c.messages = []) ∧
      ∀ item : Nat, sendReady (NewProducer Nat 3 2 2).prod = true →
        ValidCase (NewProducer Nat 3 2 2).prod SelectCase.send ∧
        (Write (NewProducer Nat 3 2 2).prod item SelectCase.send).2
          = none ∧
        (Write (NewProducer Nat 3 2 2).prod item
          SelectCase.send).1.input =
          (NewProducer Nat 3 2 2).prod.input ++ [item]) := by
  have h := unknown_kind_never_delivers (α := Nat) 3 2 2
    (by decide) (by decide) (by decide)
  exact ⟨h.1, h.2 (NewProducer Nat 3 2 2) Reachable.refl⟩

end Gompmc
